import Mathlib

/-!
Verification of the InfoSeek frontend job-tracking engine.

The definitions below are a shallow embedding of the relevant parts of
`frontend/src/App.js` (the `NewsSearch` component: `loadTasks`,
`handleSearch`, `pollTaskStatus`, `cancelSearch`, the history-page clamp
effect and the pagination buttons) and of `frontend/src/services/api.js`
(`getPdfUrl`).  Strings from JavaScript are modelled as `List Char`,
timestamps as natural numbers (milliseconds), and the four network
operations are modelled by passing their results in explicitly.
-/

namespace InfoSeek

/-! ## Definitions: the embedded data model and operations -/

/-- Job status values used by the backend and the frontend. -/
inductive Status where
  | pending
  | processing
  | completed
  | failed
deriving DecidableEq

/-- One search result, with the fields the frontend consumes. -/
structure SearchResult where
  id : String
  title : String
  source_url : String
  pdf_file : Option String
deriving DecidableEq

/-- A search task (job) as consumed by the frontend. -/
structure Task where
  id : String
  keyword : String
  status : Status
  created_at : Nat
  results : List SearchResult
  error_message : Option String
deriving DecidableEq

/-- Whitespace as matched by JavaScript `trim` and the regexes in scope
(the inputs of interest only use the ASCII whitespace characters). -/
def jsWhitespace (c : Char) : Bool :=
  c.toNat = 32 || c.toNat = 9 || c.toNat = 10 ||
  c.toNat = 13 || c.toNat = 11 || c.toNat = 12

/-- JavaScript `String.prototype.trim`. -/
def trimL (l : List Char) : List Char :=
  ((l.dropWhile jsWhitespace).reverse.dropWhile jsWhitespace).reverse

/-- Helper for `splitOnComma`; `acc` is the current chunk, reversed. -/
def splitOnCommaAux : List Char → List Char → List (List Char)
  | [], acc => [acc.reverse]
  | c :: rest, acc =>
    if c = ',' then acc.reverse :: splitOnCommaAux rest []
    else splitOnCommaAux rest (c :: acc)

/-- JavaScript `input.split(',')`. -/
def splitOnComma (l : List Char) : List (List Char) :=
  splitOnCommaAux l []

/-- Helper for `wordsWS`; `acc` is the current word, reversed. -/
def wordsAux : List Char → List Char → List (List Char)
  | [], acc => if acc = [] then [] else [acc.reverse]
  | c :: rest, acc =>
    if jsWhitespace c then
      if acc = [] then wordsAux rest [] else acc.reverse :: wordsAux rest []
    else wordsAux rest (c :: acc)

/-- JavaScript `input.split(/\s+/)` on an input with no leading or
trailing whitespace (the code only applies it to trimmed input,
where the two agree). -/
def wordsWS (l : List Char) : List (List Char) :=
  wordsAux l []

/-- `sep`-joining of a list of strings, JavaScript `parts.join(sep)`. -/
def joinWith (sep : List Char) : List (List Char) → List Char
  | [] => []
  | [x] => x
  | x :: xs => x ++ sep ++ joinWith sep xs

/-- `l` starts with `pat` (JavaScript `startsWith`). -/
def startsWithL : List Char → List Char → Bool
  | _, [] => true
  | [], _ :: _ => false
  | c :: cs, p :: ps => if c = p then startsWithL cs ps else false

/-- The regex digit class `\d`. -/
def isDigitChar (c : Char) : Bool :=
  48 ≤ c.toNat && c.toNat ≤ 57

/-- Numeric value of a digit string (`parseInt(s, 10)` on a pure digit
string; out-of-range values only ever flow into a `≤ 20` comparison,
where exact and float semantics agree). -/
def digitsToNat (ds : List Char) : Nat :=
  ds.foldl (fun a c => a * 10 + (c.toNat - 48)) 0

/-- Simple case folding covering the characters of the recognized count
nouns, mirroring the `/i` regex flag: ASCII `A-Z` and Cyrillic `А-Я`
map to their lowercase forms. -/
def foldCaseChar (c : Char) : Char :=
  if 65 ≤ c.toNat ∧ c.toNat ≤ 90 then Char.ofNat (c.toNat + 32)
  else if 0x410 ≤ c.toNat ∧ c.toNat ≤ 0x42F then Char.ofNat (c.toNat + 0x20)
  else if c.toNat = 0x401 then Char.ofNat 0x451
  else c

/-- The count-noun alternatives of the regex
`^(\d+)\s*(?:статьи|статей|статья|article|articles)?\s*$`. -/
def countNouns : List (List Char) :=
  ["статьи".data, "статей".data, "статья".data, "article".data, "articles".data]

/-- Does `r` (the text following the digits) match `\s*(?:noun)?\s*$`,
case-insensitively?  Alternation with backtracking is equivalent to
testing each noun alternative plus the empty alternative. -/
def nounTailMatches (r : List Char) : Bool :=
  let r2 := r.dropWhile jsWhitespace
  if r2 = [] then true
  else countNouns.any (fun n =>
    startsWithL (r2.map foldCaseChar) n &&
      ((r2.drop n.length).dropWhile jsWhitespace = []))

/-- Full match of `^(\d+)\s*(?:noun)?\s*$` against `l`, returning the
parsed integer (App.js lines 285 and 299). -/
def matchCount (l : List Char) : Option Nat :=
  let ds := l.takeWhile isDigitChar
  let rest := l.dropWhile isDigitChar
  if ds = [] then none
  else if nounTailMatches rest then some (digitsToNat ds) else none

/-- Count extraction from the comma clause (App.js lines 285-291):
an in-range match is used, anything else keeps the default 3. -/
def countFromClause (countPart : List Char) : Nat :=
  match matchCount countPart with
  | some n => if 0 < n ∧ n ≤ 20 then n else 3
  | none => 3

/-- Keyword/count extraction from the trimmed input
(App.js lines 272-309). -/
def parseKeywordCount (input : List Char) : List Char × Nat :=
  if input.contains ',' then
    if 2 ≤ ((splitOnComma input).map trimL).length then
      (trimL (((splitOnComma input).map trimL).headD []),
       countFromClause (trimL (joinWith [','] (((splitOnComma input).map trimL).drop 1))))
    else (input, 3)
  else
    if 1 < (wordsWS input).length then
      match matchCount ((wordsWS input).getLastD []) with
      | some n =>
        if 0 < n ∧ n ≤ 20 then
          (trimL (joinWith [' '] (wordsWS input).dropLast), n)
        else (input, 3)
      | none => (input, 3)
    else (input, 3)

/-- Outcome of the validation/parsing prefix of `handleSearch`. -/
inductive ParseOutcome where
  | invalid (msg : String)
  | parsed (kw : List Char) (count : Nat)
deriving DecidableEq

/-- The validation and parsing prefix of `handleSearch`
(App.js lines 259-314): empty input is rejected up front, then the
keyword and count are extracted, then an empty parsed keyword is
rejected. -/
def handleSearchParse (raw : List Char) : ParseOutcome :=
  if trimL raw = [] then .invalid "Please enter a keyword"
  else if (parseKeywordCount (trimL raw)).1 = [] then
    .invalid "Please enter a valid keyword"
  else .parsed (parseKeywordCount (trimL raw)).1 (parseKeywordCount (trimL raw)).2

/-- `STUCK_TASK_TIMEOUT = 15 * 60 * 1000` (App.js line 93). -/
def STUCK_TASK_TIMEOUT : Nat := 15 * 60 * 1000

/-- `status === 'completed' || status === 'failed'`. -/
def isTerminalStatus : Status → Bool
  | .completed => true
  | .failed => true
  | _ => false

/-- `status === 'pending' || status === 'processing'`. -/
def isActiveStatus : Status → Bool
  | .pending => true
  | .processing => true
  | _ => false

/-- `taskAge > STUCK_TASK_TIMEOUT` (App.js lines 104-105).  `created_at`
in the future yields a non-positive age in JavaScript and a zero age
here; both fail the strict comparison. -/
def isStuck (now : Nat) (t : Task) : Bool :=
  decide (STUCK_TASK_TIMEOUT < now - t.created_at)

/-- The `active` filter of `loadTasks` (App.js lines 96-112): removed
ids are dropped, then pending/processing tasks are kept unless stuck. -/
def activeOf (tasksArray : List Task) (removed : List String) (now : Nat) :
    List Task :=
  tasksArray.filter (fun t =>
    if removed.contains t.id then false
    else if isActiveStatus t.status then !isStuck now t
    else false)

/-- The `stuckTasks` list of `loadTasks` (App.js lines 115-126):
non-removed pending/processing tasks older than the timeout, with the
status forced to `failed` for display. -/
def stuckTasksOf (tasksArray : List Task) (removed : List String) (now : Nat) :
    List Task :=
  (tasksArray.filter (fun t =>
    if removed.contains t.id then false
    else if isActiveStatus t.status then isStuck now t
    else false)).map (fun t => { t with status := .failed })

/-- A JavaScript `Map` keyed by task id: an association list in
insertion order with pairwise-distinct keys. -/
abbrev TaskMap := List (String × Task)

/-- The keys of a `TaskMap`, in insertion order. -/
def mapKeys (m : TaskMap) : List String :=
  m.map Prod.fst

/-- The values of a `TaskMap`, in insertion order (`Map.prototype.values`). -/
def mapValues (m : TaskMap) : List Task :=
  m.map Prod.snd

/-- `Map.prototype.set`: update the entry in place if the key is
present, otherwise append a new entry. -/
def mapSet : TaskMap → String → Task → TaskMap
  | [], k, v => [(k, v)]
  | p :: rest, k, v =>
    if p.1 = k then (k, v) :: rest else p :: mapSet rest k v

/-- `Map.prototype.get` (restricted to lookup). -/
def mapLookup : TaskMap → String → Option Task
  | [], _ => none
  | p :: rest, k => if p.1 = k then some p.2 else mapLookup rest k

/-- `ts.forEach(t => map.set(t.id, t))`. -/
def applyAll (m : TaskMap) (ts : List Task) : TaskMap :=
  ts.foldl (fun acc t => mapSet acc t.id t) m

/-- The `historyMap` built by `loadTasks` (App.js lines 130-152): seed
with the terminal entries of the previous local history, overlay the
terminal entries of the fresh server list, then overlay the stuck
entries. -/
def buildHistoryMap (historyTasks tasksArray : List Task)
    (removed : List String) (now : Nat) : TaskMap :=
  applyAll
    (applyAll
      (applyAll [] (historyTasks.filter (fun t => isTerminalStatus t.status)))
      (tasksArray.filter (fun t => isTerminalStatus t.status)))
    (stuckTasksOf tasksArray removed now)

/-- Stable insertion of a task into a list sorted by `created_at`
descending: the task goes in front of the first element that is not
strictly newer.  Used to model the stable JavaScript
`sort((a, b) => new Date(b.created_at) - new Date(a.created_at))`. -/
def insertByCreatedDesc (x : Task) : List Task → List Task
  | [] => [x]
  | y :: ys =>
    if y.created_at ≤ x.created_at then x :: y :: ys
    else y :: insertByCreatedDesc x ys

/-- Stable sort by `created_at` descending (App.js lines 155, 433, 474).
JavaScript `Array.prototype.sort` is stable, so it agrees with this
insertion sort for the descending `created_at` comparator. -/
def sortByCreatedDesc : List Task → List Task
  | [] => []
  | x :: xs => insertByCreatedDesc x (sortByCreatedDesc xs)

/-- The history produced by one `loadTasks` pass (App.js lines 130-155):
the values of `historyMap` sorted by creation date, newest first. -/
def loadTasksHistory (historyTasks tasksArray : List Task)
    (removed : List String) (now : Nat) : List Task :=
  sortByCreatedDesc (mapValues (buildHistoryMap historyTasks tasksArray removed now))

/-- The two tab views (`activeView`). -/
inductive ViewTab where
  | active
  | history
deriving DecidableEq

/-- The local state of the `NewsSearch` component that the handlers
read and write.  `pollingFor` models `pollingIntervalRef`: the id whose
poller interval is currently live (`none` when no interval is set);
`removed` models `removedTaskIdsRef`. -/
structure AppState where
  keyword : List Char
  taskId : Option String
  taskKeyword : Option String
  status : Option Status
  results : List SearchResult
  error : Option String
  isLoading : Bool
  activeView : ViewTab
  activeTasks : List Task
  historyTasks : List Task
  expandedHistoryTaskId : Option String
  historyPage : Nat
  removed : List String
  pollingFor : Option String
deriving DecidableEq

/-- `cancelSearch` (App.js lines 218-243): stop polling, patch the task
to failed on the server (an external effect; its failure is only
logged), reset the task-view state, then run a `loadTasks` pass against
the fresh server list `fetched`. -/
def cancelSearch (s : AppState) (fetched : List Task) (now : Nat) : AppState :=
  if s.taskId = none then s
  else
    { s with
      pollingFor := none
      isLoading := false
      status := some .failed
      taskId := none
      taskKeyword := none
      results := []
      activeTasks := activeOf fetched s.removed now
      historyTasks := loadTasksHistory s.historyTasks fetched s.removed now }

/-- Result of one `handleSearch` invocation: either no `create()` call
was issued, or `create(kw, count)` was issued and its result consumed. -/
inductive SubmitResult where
  | noCall (s : AppState)
  | called (kw : List Char) (count : Nat) (s : AppState)
deriving DecidableEq

/-- `handleSearch` (App.js lines 250-353).  A search in progress is
cancelled instead of submitted; otherwise the input is validated and
parsed, the view state is reset for the new submission, and the result
of the collaborator `create()` call (`createResult`) is consumed:
on success the poller is started for the new id, on failure the error
is surfaced and loading cleared. -/
def handleSearch (s : AppState) (fetched : List Task) (now : Nat)
    (createResult : Except String Task) : SubmitResult :=
  if s.isLoading = true ∨ s.status = some .processing ∨ s.status = some .pending then
    .noCall (cancelSearch s fetched now)
  else
    match handleSearchParse s.keyword with
    | .invalid msg => .noCall { s with error := some msg }
    | .parsed kw count =>
      let s1 : AppState := { s with
        activeView := ViewTab.active
        historyPage := 1
        isLoading := true
        error := none
        status := none
        results := []
        taskId := none
        taskKeyword := none
        pollingFor := none }
      match createResult with
      | .ok taskData =>
        .called kw count { s1 with
          taskId := some taskData.id
          taskKeyword := some taskData.keyword
          status := some taskData.status
          activeTasks := s1.activeTasks ++ [taskData]
          pollingFor := some taskData.id }
      | .error e =>
        .called kw count { s1 with error := some e, isLoading := false }

/-- The fallback failure message (App.js lines 483-485). -/
def failedErrorMsg (t : Task) : String :=
  match t.error_message with
  | some m => "Search task failed: " ++ m
  | none => "Search task failed. Please check Celery worker logs or try again."

/-- `pollTaskStatus` (App.js lines 392-498) as a state transition on one
poll tick.  `fetchResult` is the result of the collaborator `get(id)`;
`fetched` is the server list consumed by the nested `loadTasks` call in
the completed branch.  The failed branch schedules its `loadTasks` call
on a 300 ms timer, which runs after this handler; it is not part of
this synchronous step. -/
def pollTaskStatus (s : AppState) (id : String)
    (fetchResult : Except String Task) (fetched : List Task) (now : Nat) :
    AppState :=
  match fetchResult with
  | .error e =>
    { s with pollingFor := none, isLoading := false, error := some e }
  | .ok taskData =>
    let s1 : AppState := { s with
      status := some taskData.status
      taskKeyword := if s.taskId = some id then some taskData.keyword else s.taskKeyword
      activeTasks := s.activeTasks.map (fun t => if t.id = id then taskData else t) }
    if taskData.status = .completed then
      let s2 : AppState := { s1 with pollingFor := none, isLoading := false }
      let activeAfter : List Task :=
        if s.taskId = some id then
          s2.activeTasks.map (fun t =>
            if t.id = id then { taskData with status := .completed } else t)
        else
          s2.activeTasks.filter (fun t => !(t.id = id))
      let s3 : AppState := { s2 with activeTasks := activeAfter }
      let historyAfter : List Task :=
        if s3.historyTasks.any (fun t => t.id = id) then
          s3.historyTasks.map (fun t => if t.id = id then taskData else t)
        else
          sortByCreatedDesc (taskData :: s3.historyTasks)
      let s4 : AppState := { s3 with historyTasks := historyAfter }
      let s5 : AppState := { s4 with
        activeTasks := activeOf fetched s4.removed now
        historyTasks := loadTasksHistory s4.historyTasks fetched s4.removed now }
      let newResults : List SearchResult :=
        if 0 < taskData.results.length then taskData.results else []
      let s6 : AppState := { s5 with results := newResults }
      { s6 with activeView := ViewTab.active }
    else if taskData.status = .failed then
      let s2 : AppState := { s1 with pollingFor := none, isLoading := false }
      let activeAfter : List Task :=
        if s.taskId = some id then
          s2.activeTasks.map (fun t =>
            if t.id = id then { taskData with status := .failed } else t)
        else
          s2.activeTasks.filter (fun t => !(t.id = id))
      let s3 : AppState := { s2 with activeTasks := activeAfter }
      let historyAfter : List Task :=
        if s3.historyTasks.any (fun t => t.id = id) then
          s3.historyTasks.map (fun t => if t.id = id then taskData else t)
        else
          sortByCreatedDesc (taskData :: s3.historyTasks)
      let s4 : AppState := { s3 with historyTasks := historyAfter }
      { s4 with error := some (failedErrorMsg taskData) }
    else s1

/-- `Math.ceil(len / 3)`, the page count used by the clamp effect, the
page indicator and the next-page button. -/
def historyPageCountOf (len : Nat) : Nat :=
  (len + 2) / 3

/-- The clamp effect (App.js lines 206-213): only while the history
view is shown and the history is non-empty, a page beyond
`Math.ceil(len / 3)` is reset to `maxPage || 1`. -/
def clampHistoryPage (view : ViewTab) (len page : Nat) : Nat :=
  if view = ViewTab.history ∧ 0 < len then
    if historyPageCountOf len < page then
      (if historyPageCountOf len = 0 then 1 else historyPageCountOf len)
    else page
  else page

/-- The previous-page button (App.js line 908): `Math.max(1, prev - 1)`. -/
def prevHistoryPage (page : Nat) : Nat :=
  max 1 (page - 1)

/-- The next-page button (App.js line 925):
`Math.min(Math.ceil(len / 3), prev + 1)`. -/
def nextHistoryPage (len page : Nat) : Nat :=
  min (historyPageCountOf len) (page + 1)

/-- The `/media/` segment searched for in absolute URLs. -/
def mediaSeg : List Char := "/media/".data

/-- Index of the first occurrence of `pat` in `l`
(JavaScript `indexOf`). -/
def indexOfSub : List Char → List Char → Option Nat
  | [], pat => if pat = [] then some 0 else none
  | l@(_ :: t), pat =>
    if startsWithL l pat then some 0
    else (indexOfSub t pat).map (· + 1)

/-- Index of the last occurrence of `c` in `l`
(JavaScript `lastIndexOf`). -/
def lastIndexOfChar : List Char → Char → Option Nat
  | [], _ => none
  | x :: xs, c =>
    match lastIndexOfChar xs c with
    | some i => some (i + 1)
    | none => if x = c then some 0 else none

/-- Does `pat` occur in `l`? -/
def containsSub (l pat : List Char) : Bool :=
  (indexOfSub l pat).isSome

/-- The URL-normalization step of `getPdfUrl` (api.js lines 70-82): for
an absolute URL, keep the part after the first `/media/`, or failing
that the part after the last slash. -/
def pdfUrlNormalize (pdfPath : List Char) : List Char :=
  if startsWithL pdfPath "http://".data || startsWithL pdfPath "https://".data then
    match indexOfSub pdfPath mediaSeg with
    | some i => pdfPath.drop (i + mediaSeg.length)
    | none =>
      match lastIndexOfChar pdfPath '/' with
      | some j => pdfPath.drop (j + 1)
      | none => pdfPath
  else pdfPath

/-- `cleanPath` (api.js line 85): strip one leading slash. -/
def pdfCleanPath (pdfPath : List Char) : List Char :=
  let p1 := pdfUrlNormalize pdfPath
  if startsWithL p1 "/".data then p1.drop 1 else p1

/-- `finalPath` (api.js line 88): strip one leading `media/`. -/
def pdfFinalPath (pdfPath : List Char) : List Char :=
  let c := pdfCleanPath pdfPath
  if startsWithL c "media/".data then c.drop 6 else c

/-- `getPdfUrl` (api.js lines 66-91), parameterized by the configured
base location `API_BASE_URL`. -/
def getPdfUrl (apiBaseUrl pdfPath : List Char) : List Char :=
  if pdfPath = [] then []
  else apiBaseUrl ++ "/media/".data ++ pdfFinalPath pdfPath

/-- Left-biased choice on options. -/
def orO (a b : Option Task) : Option Task :=
  match a with
  | some u => some u
  | none => b

/-- The last task in `ts` whose id is `k`: its value is the one that
survives in the map after `ts` is folded in. -/
def lastTaskWith (k : String) : List Task → Option Task
  | [] => none
  | t :: ts => orO (lastTaskWith k ts) (if t.id = k then some t else none)

/-- Every entry of the map is keyed by its value id. -/
def WellKeyed (m : TaskMap) : Prop :=
  ∀ p ∈ m, p.2.id = p.1

/-- A completed task with id `a`. -/
def taskA : Task :=
  { id := "a", keyword := "alpha", status := .completed, created_at := 100,
    results := [], error_message := none }

/-- A pending task with id `s`, created at time 0 (so it is stuck at any
`now` beyond the timeout). -/
def taskS : Task :=
  { id := "s", keyword := "sigma", status := .pending, created_at := 0,
    results := [], error_message := none }

/-- A failed task with id `f`. -/
def taskF : Task :=
  { id := "f", keyword := "phi", status := .failed, created_at := 50,
    results := [], error_message := some "boom" }

/-- Claim C2 as stated by the spec: Active membership is decided by the
strict `now - createdAt < T` test, and any pending/processing entry at
or beyond the timeout is excluded from Active and gets a failed display
copy in History (with no side condition on the removal set). -/
def claimC2Statement : Prop :=
  ∀ (hPrev L : List Task) (R : List String) (now : Nat) (t : Task),
    t ∈ L → isActiveStatus t.status = true →
    ((t ∈ activeOf L R now ↔
        (R.contains t.id = false ∧ now - t.created_at < STUCK_TASK_TIMEOUT)) ∧
      (STUCK_TASK_TIMEOUT ≤ now - t.created_at →
        t ∉ activeOf L R now ∧
        ∃ t', t' ∈ loadTasksHistory hPrev L R now ∧ t'.id = t.id ∧
          t'.status = Status.failed))

/-- Claim C5 as stated by the spec: the removal ledger never influences
the produced History. -/
def claimC5Statement : Prop :=
  ∀ (hPrev L : List Task) (now : Nat) (R : List String) (id : String),
    loadTasksHistory hPrev L R now = loadTasksHistory hPrev L (id :: R) now

/-- Claim C7 as stated by the spec: the page count is
`max(1, ceil(N/3))`, the current page is clamped into `[1, pageCount]`
after any history-length change, and next/previous saturate at the
bounds. -/
def claimC7Statement : Prop :=
  (∀ len, historyPageCountOf len = max 1 ((len + 2) / 3)) ∧
  (∀ (view : ViewTab) (len page : Nat), 1 ≤ page →
    1 ≤ clampHistoryPage view len page ∧
    clampHistoryPage view len page ≤ max 1 ((len + 2) / 3)) ∧
  (∀ len, nextHistoryPage len (historyPageCountOf len) = historyPageCountOf len) ∧
  prevHistoryPage 1 = 1

/-- Claim C6 as stated by the spec: on `create()` failure during
submission the error is surfaced, no poller is started, and the prior
task id, displayed status, results, active view and history page are
left unchanged. -/
def claimC6Statement : Prop :=
  ∀ (s : AppState) (fetched : List Task) (now : Nat) (e : String)
    (kw : List Char) (count : Nat) (s2 : AppState),
    handleSearch s fetched now (Except.error e) = SubmitResult.called kw count s2 →
    (s2.error = some e ∧ s2.pollingFor = none ∧
      s2.taskId = s.taskId ∧ s2.status = s.status ∧ s2.results = s.results ∧
      s2.activeView = s.activeView ∧ s2.historyPage = s.historyPage)

/-- A state with an old completed task on display, sitting on history
page 2 of the history view. -/
def s6cex : AppState :=
  { keyword := "Rome".data, taskId := some "old", taskKeyword := some "rome",
    status := some Status.completed, results := [], error := none,
    isLoading := false, activeView := ViewTab.history, activeTasks := [],
    historyTasks := [], expandedHistoryTaskId := none, historyPage := 2,
    removed := [], pollingFor := none }

/-- The state `handleSearch` actually leaves behind when `create()`
fails for `s6cex`: the pre-create reset has already cleared the task
view state and switched the view. -/
def s6cexAfter : AppState :=
  { s6cex with
    activeView := ViewTab.active
    historyPage := 1
    isLoading := false
    error := some "boom"
    status := none
    results := []
    taskId := none
    taskKeyword := none
    pollingFor := none }

/-- A state holding the raw input `", 5"`, with no search in progress. -/
def s10 : AppState :=
  { keyword := ", 5".data, taskId := none, taskKeyword := none, status := none,
    results := [], error := none, isLoading := false, activeView := ViewTab.active,
    activeTasks := [], historyTasks := [], expandedHistoryTaskId := none,
    historyPage := 1, removed := [], pollingFor := none }

/-- Claim C9 as stated by the spec: the PDF URL is always the base
joined with the canonical storage-relative path and never contains a
doubled media prefix. -/
def claimC9Statement : Prop :=
  ∀ (base p : List Char), p ≠ [] →
    getPdfUrl base p = base ++ "/media/".data ++ pdfFinalPath p ∧
    containsSub (getPdfUrl base p) "media/media/".data = false

/-! ## Lemmas and claim theorems -/

theorem mapKeys_cons (p : String × Task) (m : TaskMap) :
    mapKeys (p :: m) = p.1 :: mapKeys m := rfl

theorem mapValues_cons (p : String × Task) (m : TaskMap) :
    mapValues (p :: m) = p.2 :: mapValues m := rfl

theorem mem_mapKeys_mapSet {m : TaskMap} {k k' : String} {v : Task} :
    k' ∈ mapKeys (mapSet m k v) ↔ k' ∈ mapKeys m ∨ k' = k := by
  induction m with
  | nil => simp [mapSet, mapKeys]
  | cons p rest ih =>
    simp only [mapSet]
    by_cases h : p.1 = k
    · rw [if_pos h, mapKeys_cons, mapKeys_cons]
      simp only [List.mem_cons]
      constructor
      · rintro (hh | hh)
        · exact Or.inr hh
        · exact Or.inl (Or.inr hh)
      · rintro ((hh | hh) | hh)
        · exact Or.inl (hh.trans h)
        · exact Or.inr hh
        · exact Or.inl hh
    · rw [if_neg h, mapKeys_cons, mapKeys_cons]
      simp only [List.mem_cons, ih]
      tauto

theorem mapKeys_mapSet_of_mem {m : TaskMap} {k : String} {v : Task}
    (h : k ∈ mapKeys m) : mapKeys (mapSet m k v) = mapKeys m := by
  induction m with
  | nil => simp [mapKeys] at h
  | cons p rest ih =>
    simp only [mapSet]
    by_cases hp : p.1 = k
    · rw [if_pos hp, mapKeys_cons, mapKeys_cons, hp]
    · rw [if_neg hp, mapKeys_cons, mapKeys_cons]
      rw [mapKeys_cons, List.mem_cons] at h
      rcases h with h | h
      · exact absurd h.symm hp
      · rw [ih h]

theorem mapSet_eq_append_of_not_mem {m : TaskMap} {k : String} {v : Task}
    (h : k ∉ mapKeys m) : mapSet m k v = m ++ [(k, v)] := by
  induction m with
  | nil => rfl
  | cons p rest ih =>
    rw [mapKeys_cons, List.mem_cons] at h
    push_neg at h
    have hne : ¬ p.1 = k := fun hp => h.1 hp.symm
    simp only [mapSet]
    rw [if_neg hne, ih h.2, List.cons_append]

theorem nodup_mapKeys_mapSet {m : TaskMap} {k : String} {v : Task}
    (h : (mapKeys m).Nodup) : (mapKeys (mapSet m k v)).Nodup := by
  induction m with
  | nil => simp [mapSet, mapKeys]
  | cons p rest ih =>
    rw [mapKeys_cons, List.nodup_cons] at h
    simp only [mapSet]
    by_cases hp : p.1 = k
    · rw [if_pos hp, mapKeys_cons, List.nodup_cons]
      exact ⟨hp ▸ h.1, h.2⟩
    · rw [if_neg hp, mapKeys_cons, List.nodup_cons]
      refine ⟨fun hc => ?_, ih h.2⟩
      rcases mem_mapKeys_mapSet.1 hc with hc | hc
      · exact h.1 hc
      · exact hp hc

theorem mem_of_mem_mapSet {m : TaskMap} {k : String} {v : Task} {p : String × Task}
    (h : p ∈ mapSet m k v) : p ∈ m ∨ p = (k, v) := by
  induction m with
  | nil => simpa [mapSet] using h
  | cons q rest ih =>
    simp only [mapSet] at h
    by_cases hq : q.1 = k
    · rw [if_pos hq, List.mem_cons] at h
      rcases h with h | h
      · exact Or.inr h
      · exact Or.inl (List.mem_cons_of_mem _ h)
    · rw [if_neg hq, List.mem_cons] at h
      rcases h with h | h
      · exact Or.inl (by rw [h]; exact List.mem_cons_self _ _)
      · rcases ih h with h | h
        · exact Or.inl (List.mem_cons_of_mem _ h)
        · exact Or.inr h

theorem mapLookup_mapSet_self {m : TaskMap} {k : String} {v : Task} :
    mapLookup (mapSet m k v) k = some v := by
  induction m with
  | nil => simp [mapSet, mapLookup]
  | cons p rest ih =>
    simp only [mapSet]
    by_cases hp : p.1 = k
    · rw [if_pos hp]
      simp [mapLookup]
    · rw [if_neg hp]
      simp only [mapLookup]
      rw [if_neg hp]
      exact ih

theorem mapLookup_mapSet_ne {m : TaskMap} {k k' : String} {v : Task}
    (h : k' ≠ k) : mapLookup (mapSet m k v) k' = mapLookup m k' := by
  have h1 : ¬ (k = k') := fun hh => h hh.symm
  induction m with
  | nil =>
    simp only [mapSet, mapLookup]
    rw [if_neg h1]
  | cons p rest ih =>
    simp only [mapSet]
    by_cases hp : p.1 = k
    · have h2 : ¬ (p.1 = k') := fun hh => h (hp.symm.trans hh).symm
      rw [if_pos hp]
      simp only [mapLookup]
      rw [if_neg h1, if_neg h2]
    · rw [if_neg hp]
      simp only [mapLookup]
      by_cases hk : p.1 = k'
      · rw [if_pos hk, if_pos hk]
      · rw [if_neg hk, if_neg hk]
        exact ih

theorem mapLookup_eq_none_of_not_mem {m : TaskMap} {k : String}
    (h : k ∉ mapKeys m) : mapLookup m k = none := by
  induction m with
  | nil => rfl
  | cons p rest ih =>
    rw [mapKeys_cons, List.mem_cons] at h
    push_neg at h
    have hne : ¬ p.1 = k := fun hp => h.1 hp.symm
    simp only [mapLookup]
    rw [if_neg hne]
    exact ih h.2

theorem mem_mapValues_of_lookup {m : TaskMap} {k : String} {v : Task}
    (h : mapLookup m k = some v) : v ∈ mapValues m := by
  induction m with
  | nil => simp [mapLookup] at h
  | cons p rest ih =>
    simp only [mapLookup] at h
    by_cases hp : p.1 = k
    · rw [if_pos hp] at h
      have hv := Option.some.inj h
      rw [mapValues_cons, ← hv]
      exact List.mem_cons_self _ _
    · rw [if_neg hp] at h
      rw [mapValues_cons]
      exact List.mem_cons_of_mem _ (ih h)

theorem applyAll_nil (m : TaskMap) : applyAll m [] = m := rfl

theorem applyAll_cons (m : TaskMap) (t : Task) (ts : List Task) :
    applyAll m (t :: ts) = applyAll (mapSet m t.id t) ts := rfl

theorem applyAll_append (m : TaskMap) (ts us : List Task) :
    applyAll m (ts ++ us) = applyAll (applyAll m ts) us :=
  List.foldl_append _ _ _ _

theorem orO_some (u : Task) (b : Option Task) : orO (some u) b = some u := rfl

theorem orO_none (b : Option Task) : orO none b = b := rfl

theorem lastTaskWith_nil (k : String) : lastTaskWith k [] = none := rfl

theorem lastTaskWith_cons (k : String) (t : Task) (ts : List Task) :
    lastTaskWith k (t :: ts) =
      orO (lastTaskWith k ts) (if t.id = k then some t else none) := rfl

theorem lastTaskWith_mem {k : String} {ts : List Task} {u : Task}
    (h : lastTaskWith k ts = some u) : u ∈ ts ∧ u.id = k := by
  induction ts with
  | nil => simp [lastTaskWith_nil] at h
  | cons t ts ih =>
    rw [lastTaskWith_cons] at h
    cases hl : lastTaskWith k ts with
    | some w =>
      rw [hl, orO_some] at h
      have := Option.some.inj h
      subst this
      exact ⟨List.mem_cons_of_mem _ (ih hl).1, (ih hl).2⟩
    | none =>
      rw [hl, orO_none] at h
      by_cases ht : t.id = k
      · rw [if_pos ht] at h
        have := Option.some.inj h
        exact ⟨by rw [← this]; exact List.mem_cons_self _ _, by rw [← this]; exact ht⟩
      · rw [if_neg ht] at h
        cases h

theorem lastTaskWith_isSome_of_mem {k : String} {ts : List Task} {t : Task}
    (ht : t ∈ ts) (hk : t.id = k) : ∃ u, lastTaskWith k ts = some u := by
  induction ts with
  | nil => simp at ht
  | cons x ts ih =>
    rcases List.mem_cons.1 ht with h | h
    · cases hl : lastTaskWith k ts with
      | some w => exact ⟨w, by rw [lastTaskWith_cons, hl, orO_some]⟩
      | none =>
        subst h
        exact ⟨t, by rw [lastTaskWith_cons, hl, orO_none, if_pos hk]⟩
    · rcases ih h with ⟨u, hu⟩
      exact ⟨u, by rw [lastTaskWith_cons, hu, orO_some]⟩

theorem mapLookup_applyAll (m : TaskMap) (ts : List Task) (k : String) :
    mapLookup (applyAll m ts) k = orO (lastTaskWith k ts) (mapLookup m k) := by
  induction ts generalizing m with
  | nil => rfl
  | cons t ts ih =>
    rw [applyAll_cons, ih, lastTaskWith_cons]
    cases hl : lastTaskWith k ts with
    | some w => rw [orO_some, orO_some, orO_some]
    | none =>
      rw [orO_none, orO_none]
      by_cases ht : t.id = k
      · rw [if_pos ht, orO_some, ← ht, mapLookup_mapSet_self]
      · rw [if_neg ht, orO_none]
        exact mapLookup_mapSet_ne (fun hh => ht hh.symm)

theorem mapLookup_applyAll_of_last_some {m : TaskMap} {k : String}
    {ts : List Task} {u : Task} (h : lastTaskWith k ts = some u) :
    mapLookup (applyAll m ts) k = some u := by
  rw [mapLookup_applyAll, h, orO_some]

theorem mapLookup_applyAll_of_last_none {m : TaskMap} {k : String}
    {ts : List Task} (h : lastTaskWith k ts = none) :
    mapLookup (applyAll m ts) k = mapLookup m k := by
  rw [mapLookup_applyAll, h, orO_none]

theorem mem_mapKeys_applyAll_left {m : TaskMap} {k : String} (ts : List Task)
    (h : k ∈ mapKeys m) : k ∈ mapKeys (applyAll m ts) := by
  induction ts generalizing m with
  | nil => exact h
  | cons t ts ih =>
    rw [applyAll_cons]
    exact ih (mem_mapKeys_mapSet.2 (Or.inl h))

theorem mem_mapKeys_applyAll_of_mem {m : TaskMap} {ts : List Task} {t : Task}
    (h : t ∈ ts) : t.id ∈ mapKeys (applyAll m ts) := by
  induction ts generalizing m with
  | nil => simp at h
  | cons x ts ih =>
    rw [applyAll_cons]
    rcases List.mem_cons.1 h with h | h
    · subst h
      exact mem_mapKeys_applyAll_left ts (mem_mapKeys_mapSet.2 (Or.inr rfl))
    · exact ih h

theorem mapKeys_applyAll_of_sub {m : TaskMap} {ts : List Task}
    (h : ∀ t ∈ ts, t.id ∈ mapKeys m) : mapKeys (applyAll m ts) = mapKeys m := by
  induction ts generalizing m with
  | nil => rfl
  | cons t ts ih =>
    rw [applyAll_cons]
    have ht : t.id ∈ mapKeys m := h t (List.mem_cons_self _ _)
    have hsub : ∀ u ∈ ts, u.id ∈ mapKeys (mapSet m t.id t) := by
      intro u hu
      rw [mapKeys_mapSet_of_mem ht]
      exact h u (List.mem_cons_of_mem _ hu)
    rw [ih hsub]
    exact mapKeys_mapSet_of_mem ht

theorem nodup_mapKeys_applyAll {m : TaskMap} (ts : List Task)
    (h : (mapKeys m).Nodup) : (mapKeys (applyAll m ts)).Nodup := by
  induction ts generalizing m with
  | nil => exact h
  | cons t ts ih =>
    rw [applyAll_cons]
    exact ih (nodup_mapKeys_mapSet h)

theorem applyAll_fresh {m : TaskMap} {ts : List Task}
    (hfresh : ∀ t ∈ ts, t.id ∉ mapKeys m) (hnd : (ts.map Task.id).Nodup) :
    applyAll m ts = m ++ ts.map (fun t => (t.id, t)) := by
  induction ts generalizing m with
  | nil => simp [applyAll_nil]
  | cons t ts ih =>
    rw [applyAll_cons,
      mapSet_eq_append_of_not_mem (hfresh t (List.mem_cons_self _ _))]
    rw [List.map_cons, List.nodup_cons] at hnd
    have hfresh2 : ∀ u ∈ ts, u.id ∉ mapKeys (m ++ [(t.id, t)]) := by
      intro u hu hmem
      have hkeys : mapKeys (m ++ [(t.id, t)]) = mapKeys m ++ [t.id] := by
        simp [mapKeys]
      rw [hkeys, List.mem_append, List.mem_singleton] at hmem
      rcases hmem with hh | hh
      · exact hfresh u (List.mem_cons_of_mem _ hu) hh
      · exact hnd.1 (hh ▸ List.mem_map_of_mem Task.id hu)
    rw [ih hfresh2 hnd.2, List.map_cons]
    simp [List.append_assoc]

theorem forall_mapValues_applyAll {P : Task → Prop} {m : TaskMap} {ts : List Task}
    (hm : ∀ p ∈ m, P p.2) (hts : ∀ t ∈ ts, P t) :
    ∀ p ∈ applyAll m ts, P p.2 := by
  induction ts generalizing m with
  | nil => exact hm
  | cons t ts ih =>
    rw [applyAll_cons]
    refine ih (fun p hp => ?_) (fun u hu => hts u (List.mem_cons_of_mem _ hu))
    rcases mem_of_mem_mapSet hp with hp | hp
    · exact hm p hp
    · rw [hp]
      exact hts t (List.mem_cons_self _ _)

theorem wellKeyed_nil : WellKeyed [] := by
  intro p hp
  simp at hp

theorem wellKeyed_mapSet {m : TaskMap} {v : Task}
    (h : WellKeyed m) : WellKeyed (mapSet m v.id v) := by
  intro p hp
  rcases mem_of_mem_mapSet hp with hp | hp
  · exact h p hp
  · rw [hp]

theorem wellKeyed_applyAll {m : TaskMap} (ts : List Task)
    (h : WellKeyed m) : WellKeyed (applyAll m ts) := by
  induction ts generalizing m with
  | nil => exact h
  | cons t ts ih =>
    rw [applyAll_cons]
    exact ih (wellKeyed_mapSet h)

theorem taskmap_ext {m₁ m₂ : TaskMap}
    (hkeys : mapKeys m₁ = mapKeys m₂) (hnd : (mapKeys m₁).Nodup)
    (hl : ∀ k, mapLookup m₁ k = mapLookup m₂ k) : m₁ = m₂ := by
  induction m₁ generalizing m₂ with
  | nil =>
    cases m₂ with
    | nil => rfl
    | cons q r => simp [mapKeys] at hkeys
  | cons p r₁ ih =>
    cases m₂ with
    | nil => simp [mapKeys] at hkeys
    | cons q r₂ =>
      rw [mapKeys_cons, mapKeys_cons] at hkeys
      have hk1 : p.1 = q.1 := List.head_eq_of_cons_eq hkeys
      have hk2 : mapKeys r₁ = mapKeys r₂ := List.tail_eq_of_cons_eq hkeys
      rw [mapKeys_cons, List.nodup_cons] at hnd
      have hv : p.2 = q.2 := by
        have hlp := hl p.1
        simp only [mapLookup] at hlp
        rw [if_pos hk1.symm] at hlp
        simpa using hlp
      have hrest : r₁ = r₂ := by
        refine ih hk2 hnd.2 (fun k => ?_)
        by_cases hk : k = p.1
        · subst hk
          rw [mapLookup_eq_none_of_not_mem hnd.1,
            mapLookup_eq_none_of_not_mem (by rw [← hk2]; exact hnd.1)]
        · have hne1 : ¬ (p.1 = k) := fun hh => hk hh.symm
          have hne2 : ¬ (q.1 = k) := fun hh => hk (hk1.trans hh).symm
          have hlk := hl k
          simp only [mapLookup] at hlk
          rw [if_neg hne1, if_neg hne2] at hlk
          exact hlk
      have hpq : p = q := Prod.ext_iff.2 ⟨hk1, hv⟩
      rw [hpq, hrest]

theorem mapLookup_eq_of_perm {m₁ m₂ : TaskMap} (hp : m₁.Perm m₂)
    (hnd : (mapKeys m₁).Nodup) (k : String) :
    mapLookup m₁ k = mapLookup m₂ k := by
  induction hp with
  | nil => rfl
  | cons x h ih =>
    rw [mapKeys_cons, List.nodup_cons] at hnd
    simp only [mapLookup]
    by_cases hx : x.1 = k
    · rw [if_pos hx, if_pos hx]
    · rw [if_neg hx, if_neg hx]
      exact ih hnd.2
  | swap x y l =>
    simp only [mapKeys_cons, List.nodup_cons, List.mem_cons] at hnd
    simp only [mapLookup]
    by_cases h₁ : y.1 = k
    · by_cases h₂ : x.1 = k
      · exact absurd (h₁.trans h₂.symm) (fun hh => hnd.1 (Or.inl hh))
      · rw [if_pos h₁, if_neg h₂, if_pos h₁]
    · by_cases h₂ : x.1 = k
      · rw [if_neg h₁, if_pos h₂, if_pos h₂]
      · rw [if_neg h₁, if_neg h₂, if_neg h₂, if_neg h₁]
  | trans h₁ h₂ ih₁ ih₂ =>
    rw [ih₁ hnd, ih₂ ((h₁.map Prod.fst).nodup_iff.1 hnd)]

theorem mem_insertByCreatedDesc {x a : Task} {l : List Task} :
    a ∈ insertByCreatedDesc x l ↔ a = x ∨ a ∈ l := by
  induction l with
  | nil => simp [insertByCreatedDesc]
  | cons y ys ih =>
    simp only [insertByCreatedDesc]
    by_cases h : y.created_at ≤ x.created_at
    · rw [if_pos h]
      simp [List.mem_cons]
    · rw [if_neg h]
      simp only [List.mem_cons, ih]
      tauto

theorem perm_insertByCreatedDesc (x : Task) (l : List Task) :
    (insertByCreatedDesc x l).Perm (x :: l) := by
  induction l with
  | nil => exact List.Perm.refl _
  | cons y ys ih =>
    simp only [insertByCreatedDesc]
    by_cases h : y.created_at ≤ x.created_at
    · rw [if_pos h]
    · rw [if_neg h]
      exact (ih.cons y).trans (List.Perm.swap x y ys)

theorem sortByCreatedDesc_perm (l : List Task) : (sortByCreatedDesc l).Perm l := by
  induction l with
  | nil => exact List.Perm.refl _
  | cons x xs ih =>
    simp only [sortByCreatedDesc]
    exact (perm_insertByCreatedDesc x (sortByCreatedDesc xs)).trans (ih.cons x)

theorem pairwise_insertByCreatedDesc {x : Task} {l : List Task}
    (h : l.Pairwise (fun a b => b.created_at ≤ a.created_at)) :
    (insertByCreatedDesc x l).Pairwise (fun a b => b.created_at ≤ a.created_at) := by
  induction l with
  | nil => simp [insertByCreatedDesc]
  | cons y ys ih =>
    rw [List.pairwise_cons] at h
    simp only [insertByCreatedDesc]
    by_cases hc : y.created_at ≤ x.created_at
    · rw [if_pos hc, List.pairwise_cons]
      constructor
      · intro b hb
        rcases List.mem_cons.1 hb with hb | hb
        · rw [hb]
          exact hc
        · exact le_trans (h.1 b hb) hc
      · rw [List.pairwise_cons]
        exact h
    · rw [if_neg hc, List.pairwise_cons]
      constructor
      · intro b hb
        rcases mem_insertByCreatedDesc.1 hb with hb | hb
        · rw [hb]
          exact Nat.le_of_lt (Nat.lt_of_not_le hc)
        · exact h.1 b hb
      · exact ih h.2

theorem sortByCreatedDesc_pairwise (l : List Task) :
    (sortByCreatedDesc l).Pairwise (fun a b => b.created_at ≤ a.created_at) := by
  induction l with
  | nil => simp [sortByCreatedDesc]
  | cons x xs ih =>
    simp only [sortByCreatedDesc]
    exact pairwise_insertByCreatedDesc ih

theorem sortByCreatedDesc_eq_of_pairwise {l : List Task}
    (h : l.Pairwise (fun a b => b.created_at ≤ a.created_at)) :
    sortByCreatedDesc l = l := by
  induction l with
  | nil => rfl
  | cons x xs ih =>
    rw [List.pairwise_cons] at h
    simp only [sortByCreatedDesc]
    rw [ih h.2]
    cases xs with
    | nil => rfl
    | cons y ys =>
      simp only [insertByCreatedDesc]
      rw [if_pos (h.1 y (List.mem_cons_self _ _))]

theorem buildHistoryMap_eq (h L : List Task) (R : List String) (now : Nat) :
    buildHistoryMap h L R now =
      applyAll (applyAll [] (h.filter (fun t => isTerminalStatus t.status)))
        ((L.filter (fun t => isTerminalStatus t.status)) ++ stuckTasksOf L R now) := by
  rw [applyAll_append]
  rfl

theorem stuckTasksOf_status {L : List Task} {R : List String} {now : Nat} {t : Task}
    (h : t ∈ stuckTasksOf L R now) : t.status = Status.failed := by
  rcases List.mem_map.1 h with ⟨u, _, hu⟩
  rw [← hu]

theorem buildHistoryMap_terminal (h L : List Task) (R : List String) (now : Nat) :
    ∀ p ∈ buildHistoryMap h L R now, isTerminalStatus p.2.status = true := by
  rw [buildHistoryMap_eq]
  refine @forall_mapValues_applyAll (fun u => isTerminalStatus u.status = true) _ _
    (@forall_mapValues_applyAll (fun u => isTerminalStatus u.status = true) _ _ ?_ ?_) ?_
  · intro p hp
    simp at hp
  · intro t ht
    exact (List.mem_filter.1 ht).2
  · intro t ht
    rcases List.mem_append.1 ht with ht | ht
    · exact (List.mem_filter.1 ht).2
    · rw [stuckTasksOf_status ht]
      rfl

theorem buildHistoryMap_wellKeyed (h L : List Task) (R : List String) (now : Nat) :
    WellKeyed (buildHistoryMap h L R now) := by
  rw [buildHistoryMap_eq]
  exact wellKeyed_applyAll _ (wellKeyed_applyAll _ wellKeyed_nil)

theorem buildHistoryMap_nodup (h L : List Task) (R : List String) (now : Nat) :
    (mapKeys (buildHistoryMap h L R now)).Nodup := by
  rw [buildHistoryMap_eq]
  refine nodup_mapKeys_applyAll _ (nodup_mapKeys_applyAll _ ?_)
  simp [mapKeys]

theorem mapValues_ids_eq_keys {m : TaskMap} (h : WellKeyed m) :
    (mapValues m).map Task.id = mapKeys m := by
  unfold mapValues mapKeys
  rw [List.map_map]
  exact List.map_congr_left (fun p hp => h p hp)

/-- Any id present in the history map is carried by some entry of the
produced (sorted) history list. -/
theorem id_in_history_of_mem_keys {h L : List Task} {R : List String} {now : Nat}
    {k : String} (hk : k ∈ mapKeys (buildHistoryMap h L R now)) :
    ∃ t', t' ∈ loadTasksHistory h L R now ∧ t'.id = k := by
  rcases List.mem_map.1 hk with ⟨p, hp, hpk⟩
  refine ⟨p.2, ?_, ?_⟩
  · unfold loadTasksHistory
    exact ((sortByCreatedDesc_perm _).mem_iff).2 (List.mem_map_of_mem Prod.snd hp)
  · rw [buildHistoryMap_wellKeyed h L R now p hp, hpk]

theorem map_pair_values {m : TaskMap} (h : WellKeyed m) :
    (mapValues m).map (fun t => (t.id, t)) = m := by
  unfold mapValues
  rw [List.map_map]
  have hc : ∀ p ∈ m, ((fun t => (t.id, t)) ∘ Prod.snd) p = p := by
    intro p hp
    simp only [Function.comp_apply]
    rw [h p hp]
  rw [List.map_congr_left hc]
  simp

/-- Re-seeding an overlay with the key-distinct association list of its
own produced values is a fixed point: overlaying the same task list
again changes nothing, and the re-seeded map lists exactly the given
values. -/
theorem reseed_fixes (seed1 : TaskMap) (ov H1 : List Task)
    (hperm : H1.Perm (mapValues (applyAll seed1 ov)))
    (hwk : WellKeyed (applyAll seed1 ov))
    (hnd : (mapKeys (applyAll seed1 ov)).Nodup) :
    applyAll (applyAll [] H1) ov = applyAll [] H1 ∧
      mapValues (applyAll [] H1) = H1 := by
  have hids : (H1.map Task.id).Nodup := by
    have h1 : (H1.map Task.id).Perm ((mapValues (applyAll seed1 ov)).map Task.id) :=
      hperm.map Task.id
    rw [mapValues_ids_eq_keys hwk] at h1
    exact h1.nodup_iff.2 hnd
  have hfresh : ∀ t ∈ H1, t.id ∉ mapKeys ([] : TaskMap) := by
    intro t ht hmem
    simp [mapKeys] at hmem
  have hseed2 : applyAll [] H1 = H1.map (fun t => (t.id, t)) := by
    rw [applyAll_fresh hfresh hids, List.nil_append]
  have hvals : mapValues (applyAll [] H1) = H1 := by
    rw [hseed2]
    unfold mapValues
    rw [List.map_map]
    have hc : ∀ t ∈ H1, (Prod.snd ∘ fun t => (t.id, t)) t = t := fun t _ => rfl
    rw [List.map_congr_left hc]
    simp
  have hsp : (applyAll [] H1).Perm (applyAll seed1 ov) := by
    rw [hseed2]
    have h2 := hperm.map (fun t => (t.id, t))
    rwa [map_pair_values hwk] at h2
  have hndseed2 : (mapKeys (applyAll [] H1)).Nodup :=
    (hsp.map Prod.fst).nodup_iff.2 hnd
  have hsub : ∀ t ∈ ov, t.id ∈ mapKeys (applyAll [] H1) := by
    intro t ht
    exact ((hsp.map Prod.fst).mem_iff).2 (mem_mapKeys_applyAll_of_mem ht)
  have hkeys2 : mapKeys (applyAll (applyAll [] H1) ov) = mapKeys (applyAll [] H1) :=
    mapKeys_applyAll_of_sub hsub
  have hnd2 : (mapKeys (applyAll (applyAll [] H1) ov)).Nodup := by
    rw [hkeys2]
    exact hndseed2
  have hlook : ∀ k, mapLookup (applyAll (applyAll [] H1) ov) k =
      mapLookup (applyAll [] H1) k := by
    intro k
    rw [mapLookup_applyAll]
    have hseedlook : mapLookup (applyAll [] H1) k = mapLookup (applyAll seed1 ov) k :=
      mapLookup_eq_of_perm hsp hndseed2 k
    cases hl : lastTaskWith k ov with
    | some u => rw [orO_some, hseedlook, mapLookup_applyAll, hl, orO_some]
    | none => rw [orO_none]
  exact ⟨taskmap_ext hkeys2 hnd2 hlook, hvals⟩

/-- Every entry of a produced history has terminal (displayed) status. -/
theorem loadTasksHistory_terminal (hPrev L : List Task) (R : List String) (now : Nat) :
    ∀ t ∈ loadTasksHistory hPrev L R now, isTerminalStatus t.status = true := by
  intro t ht
  unfold loadTasksHistory at ht
  have hmem := (sortByCreatedDesc_perm _).mem_iff.1 ht
  rcases List.mem_map.1 hmem with ⟨p, hp, hpt⟩
  rw [← hpt]
  exact buildHistoryMap_terminal hPrev L R now p hp

/-- Claim C1: for every merge pass, every job id whose entry in the
previous local History has status completed or failed is present in the
History produced by the pass, even when the fetched collection omits
that id (no terminal job ever disappears from History). -/
theorem claim_C1_terminal_ids_preserved (hPrev L : List Task) (R : List String)
    (now : Nat) (t : Task) (hmem : t ∈ hPrev)
    (hterm : isTerminalStatus t.status = true) :
    ∃ t', t' ∈ loadTasksHistory hPrev L R now ∧ t'.id = t.id := by
  apply id_in_history_of_mem_keys
  rw [buildHistoryMap_eq]
  apply mem_mapKeys_applyAll_left
  exact mem_mapKeys_applyAll_of_mem (List.mem_filter.2 ⟨hmem, hterm⟩)

/-- Witness for C1 at a concrete input: the completed task `taskA`,
present in the previous history but absent from the fetched list,
survives the pass. -/
theorem claim_C1_witness :
    ∃ t', t' ∈ loadTasksHistory [taskA] [] [] 0 ∧ t'.id = taskA.id :=
  claim_C1_terminal_ids_preserved [taskA] [] [] 0 taskA (by decide) (by decide)

/-- Claim C4: the merge is idempotent.  Re-running the synchronization
pass with the same fetched list, removal set and time, seeded with the
first pass output History, returns that History unchanged. -/
theorem claim_C4_merge_idempotent (hPrev L : List Task) (R : List String) (now : Nat) :
    loadTasksHistory (loadTasksHistory hPrev L R now) L R now =
      loadTasksHistory hPrev L R now := by
  have hfilter : (loadTasksHistory hPrev L R now).filter
      (fun t => isTerminalStatus t.status) = loadTasksHistory hPrev L R now :=
    List.filter_eq_self.2 (loadTasksHistory_terminal hPrev L R now)
  have hperm : (loadTasksHistory hPrev L R now).Perm
      (mapValues (applyAll
        (applyAll [] (hPrev.filter (fun t => isTerminalStatus t.status)))
        (L.filter (fun t => isTerminalStatus t.status) ++ stuckTasksOf L R now))) := by
    rw [← buildHistoryMap_eq]
    exact sortByCreatedDesc_perm _
  have hwk : WellKeyed (applyAll
      (applyAll [] (hPrev.filter (fun t => isTerminalStatus t.status)))
      (L.filter (fun t => isTerminalStatus t.status) ++ stuckTasksOf L R now)) := by
    rw [← buildHistoryMap_eq]
    exact buildHistoryMap_wellKeyed hPrev L R now
  have hnd : (mapKeys (applyAll
      (applyAll [] (hPrev.filter (fun t => isTerminalStatus t.status)))
      (L.filter (fun t => isTerminalStatus t.status) ++ stuckTasksOf L R now))).Nodup := by
    rw [← buildHistoryMap_eq]
    exact buildHistoryMap_nodup hPrev L R now
  obtain ⟨hfix, hvals⟩ := reseed_fixes _ _ _ hperm hwk hnd
  have hpair : (loadTasksHistory hPrev L R now).Pairwise
      (fun a b => b.created_at ≤ a.created_at) := by
    unfold loadTasksHistory
    exact sortByCreatedDesc_pairwise _
  show sortByCreatedDesc (mapValues
      (buildHistoryMap (loadTasksHistory hPrev L R now) L R now)) =
    loadTasksHistory hPrev L R now
  rw [buildHistoryMap_eq, hfilter, hfix, hvals]
  exact sortByCreatedDesc_eq_of_pairwise hpair

theorem orO_none_right (a : Option Task) : orO a none = a := by
  cases a <;> rfl

theorem orO_assoc (a b c : Option Task) :
    orO (orO a b) c = orO a (orO b c) := by
  cases a <;> rfl

theorem lastTaskWith_append (k : String) (xs ys : List Task) :
    lastTaskWith k (xs ++ ys) = orO (lastTaskWith k ys) (lastTaskWith k xs) := by
  induction xs with
  | nil => rw [List.nil_append, lastTaskWith_nil, orO_none_right]
  | cons x xs ih =>
    rw [List.cons_append, lastTaskWith_cons, ih, lastTaskWith_cons, orO_assoc]

/-- Membership in the Active view, characterized: in the fetched list,
not dismissed, pending/processing, and aged at most the timeout
(the code keeps a job whose age equals the timeout exactly). -/
theorem mem_activeOf {L : List Task} {R : List String} {now : Nat} {t : Task} :
    t ∈ activeOf L R now ↔
      (t ∈ L ∧ R.contains t.id = false ∧ isActiveStatus t.status = true ∧
        now - t.created_at ≤ STUCK_TASK_TIMEOUT) := by
  unfold activeOf
  rw [List.mem_filter]
  constructor
  · rintro ⟨hL, hpred⟩
    refine ⟨hL, ?_⟩
    by_cases h1 : R.contains t.id = true
    · rw [if_pos h1] at hpred
      cases hpred
    · have h1f : R.contains t.id = false := Bool.eq_false_iff.2 h1
      rw [if_neg h1] at hpred
      by_cases h2 : isActiveStatus t.status = true
      · rw [if_pos h2] at hpred
        simp only [isStuck, Bool.not_eq_true'] at hpred
        have hle := of_decide_eq_false hpred
        exact ⟨h1f, h2, by omega⟩
      · rw [if_neg h2] at hpred
        cases hpred
  · rintro ⟨hL, h1, h2, h3⟩
    refine ⟨hL, ?_⟩
    have hcond : ¬ (R.contains t.id = true) := by
      rw [h1]
      simp
    rw [if_neg hcond, if_pos h2]
    simp only [isStuck, Bool.not_eq_true']
    exact decide_eq_false (by omega)

/-- The stuck display copy of a non-removed, pending/processing,
over-age task is produced by the stuck-task filter. -/
theorem stuck_copy_mem {L : List Task} {R : List String} {now : Nat} {t : Task}
    (hL : t ∈ L) (hrem : R.contains t.id = false)
    (hact : isActiveStatus t.status = true)
    (hstk : STUCK_TASK_TIMEOUT < now - t.created_at) :
    ({ t with status := Status.failed } : Task) ∈ stuckTasksOf L R now := by
  unfold stuckTasksOf
  apply List.mem_map_of_mem
  rw [List.mem_filter]
  refine ⟨hL, ?_⟩
  have hcond : ¬ (R.contains t.id = true) := by
    rw [hrem]
    simp
  rw [if_neg hcond, if_pos hact]
  exact decide_eq_true hstk

/-- A stuck, non-removed pending/processing task of the fetched list
contributes a failed-status entry with its id to the produced History. -/
theorem stuck_id_in_history (hPrev L : List Task) (R : List String) (now : Nat)
    (t : Task) (hL : t ∈ L) (hact : isActiveStatus t.status = true)
    (hrem : R.contains t.id = false)
    (hstk : STUCK_TASK_TIMEOUT < now - t.created_at) :
    ∃ t', t' ∈ loadTasksHistory hPrev L R now ∧ t'.id = t.id ∧
      t'.status = Status.failed := by
  have hmem : ({ t with status := Status.failed } : Task) ∈ stuckTasksOf L R now :=
    stuck_copy_mem hL hrem hact hstk
  obtain ⟨u, hu⟩ := lastTaskWith_isSome_of_mem hmem rfl
  have humem := lastTaskWith_mem hu
  have hlastov : lastTaskWith t.id
      (L.filter (fun x => isTerminalStatus x.status) ++ stuckTasksOf L R now) =
      some u := by
    rw [lastTaskWith_append, hu, orO_some]
  have hlook : mapLookup (buildHistoryMap hPrev L R now) t.id = some u := by
    rw [buildHistoryMap_eq]
    exact mapLookup_applyAll_of_last_some hlastov
  refine ⟨u, ?_, humem.2, stuckTasksOf_status humem.1⟩
  unfold loadTasksHistory
  exact (sortByCreatedDesc_perm _).mem_iff.2 (mem_mapValues_of_lookup hlook)

/-- Counterexample to C2: a pending task whose age is exactly the
15-minute timeout is kept in Active by the code (the test is the strict
`taskAge > STUCK_TASK_TIMEOUT`), while the claim requires it to be
excluded. -/
theorem claim_C2_counterexample : ¬ claimC2Statement := by
  intro h
  have h2 := (h [] [taskS] [] STUCK_TASK_TIMEOUT taskS (by decide) (by decide)).2
    (by decide)
  exact h2.1 (by decide)

/-- Claim C2, amended: the boundary is strict — a pending/processing
fetched entry is in Active iff it is not removed and its age is at most
the timeout, and only an entry strictly older than the timeout that is
also not in the removal set is excluded from Active and synthesized
into History as a failed display copy.  (A removed stuck entry gets no
synthesized copy.)  The pass itself issues no store write: it is a pure
function of its inputs. -/
theorem claim_C2_amended (hPrev L : List Task) (R : List String) (now : Nat)
    (t : Task) :
    (t ∈ activeOf L R now ↔
      (t ∈ L ∧ R.contains t.id = false ∧ isActiveStatus t.status = true ∧
        now - t.created_at ≤ STUCK_TASK_TIMEOUT)) ∧
    (t ∈ L → isActiveStatus t.status = true → R.contains t.id = false →
      STUCK_TASK_TIMEOUT < now - t.created_at →
      t ∉ activeOf L R now ∧
      ∃ t', t' ∈ loadTasksHistory hPrev L R now ∧ t'.id = t.id ∧
        t'.status = Status.failed) := by
  constructor
  · exact mem_activeOf
  · intro hL hact hrem hstk
    constructor
    · intro hmem
      have := (mem_activeOf.1 hmem).2.2.2
      omega
    · exact stuck_id_in_history hPrev L R now t hL hact hrem hstk

/-- Witness for the amended C2 at a concrete input: `taskS` aged one
past the timeout leaves Active and appears in History as failed. -/
theorem claim_C2_witness :
    taskS ∉ activeOf [taskS] [] (STUCK_TASK_TIMEOUT + 1) ∧
      ∃ t', t' ∈ loadTasksHistory [] [taskS] [] (STUCK_TASK_TIMEOUT + 1) ∧
        t'.id = taskS.id ∧ t'.status = Status.failed :=
  (claim_C2_amended [] [taskS] [] (STUCK_TASK_TIMEOUT + 1) taskS).2
    (by decide) (by decide) (by decide) (by decide)

/-- Counterexample to C5: dismissing a stuck pending task removes its
synthesized failed copy from History — with the id in the ledger the
stuck entry is filtered out before synthesis, so History differs. -/
theorem claim_C5_counterexample : ¬ claimC5Statement := by
  intro h
  exact absurd (h [] [taskS] (STUCK_TASK_TIMEOUT + 1) [] "s") (by decide)

/-- Claim C5, amended: ledger membership leaves every terminal job in
History (a dismissed terminal job still appears), and whenever the
fetched list contains no over-age pending/processing entry the produced
History is fully independent of the ledger; only the synthesis of
stuck display copies consults the ledger. -/
theorem claim_C5_amended (hPrev L : List Task) (R R' : List String) (now : Nat) :
    (∀ t ∈ L, isTerminalStatus t.status = true →
      ∃ t', t' ∈ loadTasksHistory hPrev L R now ∧ t'.id = t.id) ∧
    ((∀ t ∈ L, isActiveStatus t.status = true →
        now - t.created_at ≤ STUCK_TASK_TIMEOUT) →
      loadTasksHistory hPrev L R now = loadTasksHistory hPrev L R' now) := by
  constructor
  · intro t hL hterm
    apply id_in_history_of_mem_keys
    rw [buildHistoryMap_eq]
    apply mem_mapKeys_applyAll_of_mem
    exact List.mem_append.2 (Or.inl (List.mem_filter.2 ⟨hL, hterm⟩))
  · intro hnostuck
    have hstuck_nil : ∀ R₀ : List String, stuckTasksOf L R₀ now = [] := by
      intro R₀
      unfold stuckTasksOf
      rw [List.filter_eq_nil_iff.2, List.map_nil]
      intro t ht hpred
      by_cases h1 : R₀.contains t.id = true
      · rw [if_pos h1] at hpred
        cases hpred
      · rw [if_neg h1] at hpred
        by_cases h2 : isActiveStatus t.status = true
        · rw [if_pos h2] at hpred
          simp only [isStuck] at hpred
          have hlt := of_decide_eq_true hpred
          have hle := hnostuck t ht h2
          omega
        · rw [if_neg h2] at hpred
          cases hpred
    unfold loadTasksHistory buildHistoryMap
    rw [hstuck_nil R, hstuck_nil R']

/-- Witness for the amended C5 at a concrete input: the dismissed
completed task `taskA` still appears in History, and with no stuck
entries the History is the same with and without the dismissal. -/
theorem claim_C5_witness :
    (∃ t', t' ∈ loadTasksHistory [] [taskA] ["a"] 200 ∧ t'.id = taskA.id) ∧
      loadTasksHistory [] [taskA] ["a"] 200 = loadTasksHistory [] [taskA] [] 200 :=
  ⟨(claim_C5_amended [] [taskA] ["a"] [] 200).1 taskA (by decide) (by decide),
    (claim_C5_amended [] [taskA] ["a"] [] 200).2 (by decide)⟩

/-- Counterexample to C7: the clamp effect runs only while the history
view is shown and the history is non-empty; when the history length
drops to 0 the page is left as is (here 2), outside
`[1, max 1 (ceil 0 3)] = [1, 1]`. -/
theorem claim_C7_counterexample : ¬ claimC7Statement := by
  intro h
  exact absurd (h.2.1 ViewTab.history 0 2 (by decide)).2 (by decide)

/-- Claim C7, amended: the code page count is `ceil(N/3)` — which
agrees with `max(1, ceil(N/3))` whenever the pagination controls are
rendered (N > 3) — and the clamp keeps the page in
`[1, max 1 (ceil N 3)]` only while the history view is shown and the
history is non-empty; next/previous saturate at the bounds and preserve
the valid range. -/
theorem claim_C7_amended (view : ViewTab) (len page : Nat) :
    (3 < len → historyPageCountOf len = max 1 ((len + 2) / 3)) ∧
    (view = ViewTab.history → 0 < len → 1 ≤ page →
      1 ≤ clampHistoryPage view len page ∧
      clampHistoryPage view len page ≤ max 1 ((len + 2) / 3)) ∧
    (nextHistoryPage len (historyPageCountOf len) = historyPageCountOf len) ∧
    (prevHistoryPage 1 = 1) ∧
    (1 ≤ page → 1 ≤ prevHistoryPage page ∧ prevHistoryPage page ≤ page) ∧
    (1 ≤ page → page ≤ historyPageCountOf len →
      1 ≤ nextHistoryPage len page ∧ nextHistoryPage len page ≤ historyPageCountOf len) := by
  refine ⟨?_, ?_, ?_, ?_, ?_, ?_⟩
  · intro h4
    unfold historyPageCountOf
    omega
  · intro hv hl hp
    unfold clampHistoryPage historyPageCountOf
    rw [if_pos ⟨hv, hl⟩]
    by_cases hc : (len + 2) / 3 < page
    · rw [if_pos hc]
      by_cases hz : (len + 2) / 3 = 0
      · rw [if_pos hz]
        omega
      · rw [if_neg hz]
        omega
    · rw [if_neg hc]
      omega
  · unfold nextHistoryPage historyPageCountOf
    omega
  · unfold prevHistoryPage
    omega
  · intro hp
    unfold prevHistoryPage
    omega
  · intro h1 h2
    unfold historyPageCountOf at h2 ⊢
    unfold nextHistoryPage historyPageCountOf
    omega

/-- Witness for the amended C7 at a concrete input: with 7 history
entries the page count is `max 1 (ceil 7 3) = 3` and an out-of-range
page 9 is clamped back into range in the history view. -/
theorem claim_C7_witness :
    historyPageCountOf 7 = max 1 ((7 + 2) / 3) ∧
      (1 ≤ clampHistoryPage ViewTab.history 7 9 ∧
        clampHistoryPage ViewTab.history 7 9 ≤ max 1 ((7 + 2) / 3)) :=
  ⟨(claim_C7_amended ViewTab.history 7 9).1 (by decide),
    (claim_C7_amended ViewTab.history 7 9).2.1 rfl (by decide) (by decide)⟩

/-- Counterexample to C6: submission resets the task state and switches
the view before calling `create()`, so after a create failure the prior
task id (and status, results, view, page) are not restored — here
`taskId` went from `some "old"` to `none`. -/
theorem claim_C6_counterexample : ¬ claimC6Statement := by
  intro h
  have h2 := h s6cex [] 0 "boom" "Rome".data 3 s6cexAfter (by decide)
  exact absurd h2.2.2.1 (by decide)

/-- Claim C6, amended: on `create()` failure the error is surfaced,
loading is cleared and no poller is running, and the task lists, input
keyword and removal set are unchanged — but the task id, task keyword,
displayed status and results have been reset, the view switched to
Active and the history page reset to 1, because the submission performs
these resets before attempting `create()`. -/
theorem claim_C6_amended (s : AppState) (fetched : List Task) (now : Nat)
    (e : String) (kw : List Char) (count : Nat) (s2 : AppState)
    (h : handleSearch s fetched now (Except.error e) = SubmitResult.called kw count s2) :
    s2.error = some e ∧ s2.isLoading = false ∧ s2.pollingFor = none ∧
    s2.taskId = none ∧ s2.taskKeyword = none ∧ s2.status = none ∧
    s2.results = [] ∧ s2.activeView = ViewTab.active ∧ s2.historyPage = 1 ∧
    s2.activeTasks = s.activeTasks ∧ s2.historyTasks = s.historyTasks ∧
    s2.keyword = s.keyword ∧ s2.removed = s.removed := by
  unfold handleSearch at h
  split at h
  · simp at h
  · split at h
    · simp at h
    · rw [SubmitResult.called.injEq] at h
      rw [← h.2.2]
      exact ⟨rfl, rfl, rfl, rfl, rfl, rfl, rfl, rfl, rfl, rfl, rfl, rfl, rfl⟩

/-- Witness for the amended C6 at the concrete failing submission from
`s6cex`. -/
theorem claim_C6_witness :
    s6cexAfter.error = some "boom" ∧ s6cexAfter.isLoading = false ∧
    s6cexAfter.pollingFor = none ∧ s6cexAfter.taskId = none ∧
    s6cexAfter.taskKeyword = none ∧ s6cexAfter.status = none ∧
    s6cexAfter.results = [] ∧ s6cexAfter.activeView = ViewTab.active ∧
    s6cexAfter.historyPage = 1 ∧ s6cexAfter.activeTasks = s6cex.activeTasks ∧
    s6cexAfter.historyTasks = s6cex.historyTasks ∧
    s6cexAfter.keyword = s6cex.keyword ∧ s6cexAfter.removed = s6cex.removed :=
  claim_C6_amended s6cex [] 0 "boom" "Rome".data 3 s6cexAfter (by decide)

/-- Claim C10: a non-empty raw input whose parsed keyword part is empty
(such as `", 5"`) is rejected with a validation error before any
`create()` call, and only the error field of the state changes. -/
theorem claim_C10_empty_keyword_validation :
    handleSearchParse (", 5".data) = ParseOutcome.invalid "Please enter a valid keyword" ∧
    (∀ (s : AppState) (fetched : List Task) (now : Nat) (cr : Except String Task),
      ¬ (s.isLoading = true ∨ s.status = some Status.processing ∨
          s.status = some Status.pending) →
      handleSearchParse s.keyword = ParseOutcome.invalid "Please enter a valid keyword" →
      handleSearch s fetched now cr =
        SubmitResult.noCall { s with error := some "Please enter a valid keyword" }) := by
  constructor
  · decide
  · intro s fetched now cr hguard hparse
    unfold handleSearch
    rw [if_neg hguard, hparse]

/-- Witness for C10 at the concrete state `s10` holding `", 5"`: no
`create()` call is issued and only the error is set. -/
theorem claim_C10_witness :
    handleSearch s10 [] 0 (Except.error "x") =
      SubmitResult.noCall { s10 with error := some "Please enter a valid keyword" } :=
  claim_C10_empty_keyword_validation.2 s10 [] 0 (Except.error "x")
    (by decide) (by decide)

/-- Claim C8: when a poll `get()` fetch fails, the poller timer is
cancelled, the error is surfaced, loading stops, and the job state —
last-known status, results, task id and both task lists — is left
unchanged (no retry, no reclassification). -/
theorem claim_C8_poll_error_stops_and_preserves (s : AppState) (id : String)
    (e : String) (fetched : List Task) (now : Nat) :
    (pollTaskStatus s id (Except.error e) fetched now).pollingFor = none ∧
    (pollTaskStatus s id (Except.error e) fetched now).error = some e ∧
    (pollTaskStatus s id (Except.error e) fetched now).isLoading = false ∧
    (pollTaskStatus s id (Except.error e) fetched now).status = s.status ∧
    (pollTaskStatus s id (Except.error e) fetched now).results = s.results ∧
    (pollTaskStatus s id (Except.error e) fetched now).taskId = s.taskId ∧
    (pollTaskStatus s id (Except.error e) fetched now).activeTasks = s.activeTasks ∧
    (pollTaskStatus s id (Except.error e) fetched now).historyTasks = s.historyTasks :=
  ⟨rfl, rfl, rfl, rfl, rfl, rfl, rfl, rfl⟩

theorem countFromClause_range (s : List Char) :
    1 ≤ countFromClause s ∧ countFromClause s ≤ 20 := by
  unfold countFromClause
  cases matchCount s with
  | none => decide
  | some n =>
    show 1 ≤ (if 0 < n ∧ n ≤ 20 then n else 3) ∧
      (if 0 < n ∧ n ≤ 20 then n else 3) ≤ 20
    by_cases h : 0 < n ∧ n ≤ 20
    · rw [if_pos h]
      omega
    · rw [if_neg h]
      omega

theorem countFromClause_default {s : List Char} {n : Nat}
    (h : matchCount s = some n) (hout : ¬ (0 < n ∧ n ≤ 20)) :
    countFromClause s = 3 := by
  unfold countFromClause
  rw [h]
  show (if 0 < n ∧ n ≤ 20 then n else 3) = 3
  rw [if_neg hout]

theorem parseKeywordCount_count_range (input : List Char) (kw : List Char) (c : Nat)
    (h : parseKeywordCount input = (kw, c)) : 1 ≤ c ∧ c ≤ 20 := by
  unfold parseKeywordCount at h
  split at h
  · split at h
    · injection h with h1 h2
      subst h2
      exact countFromClause_range _
    · injection h with h1 h2
      omega
  · split at h
    · split at h
      · rename_i hmatch
        split at h
        · rename_i hn
          injection h with h1 h2
          subst h2
          omega
        · injection h with h1 h2
          omega
      · injection h with h1 h2
        omega
    · injection h with h1 h2
      omega

theorem handleSearchParse_count_range (raw kw : List Char) (c : Nat)
    (h : handleSearchParse raw = ParseOutcome.parsed kw c) : 1 ≤ c ∧ c ≤ 20 := by
  unfold handleSearchParse at h
  split at h
  · cases h
  · split at h
    · cases h
    · rw [ParseOutcome.parsed.injEq] at h
      rcases h with ⟨h1, h2⟩
      exact parseKeywordCount_count_range (trimL raw) kw c
        (by rw [← h1, ← h2])

theorem isDigitChar_not_ws {c : Char} (h : isDigitChar c = true) :
    jsWhitespace c = false := by
  unfold isDigitChar at h
  rw [Bool.and_eq_true] at h
  have h1 := of_decide_eq_true h.1
  unfold jsWhitespace
  simp only [Bool.or_eq_false_iff, decide_eq_false_iff_not]
  omega

theorem isDigitChar_ne_comma {c : Char} (h : isDigitChar c = true) :
    ¬ (c = ',') := by
  intro hc
  unfold isDigitChar at h
  rw [Bool.and_eq_true] at h
  have h1 := of_decide_eq_true h.1
  subst hc
  exact absurd h1 (by decide)

theorem dropWhile_eq_self_of_all {p : Char → Bool} {l : List Char}
    (h : ∀ c ∈ l, p c = false) : l.dropWhile p = l := by
  cases l with
  | nil => rfl
  | cons c cs =>
    rw [List.dropWhile_cons, if_neg]
    rw [h c (List.mem_cons_self _ _)]
    simp

theorem trimL_eq_self {l : List Char}
    (h : ∀ c ∈ l, jsWhitespace c = false) : trimL l = l := by
  unfold trimL
  rw [dropWhile_eq_self_of_all h,
    dropWhile_eq_self_of_all (fun c hc => h c (List.mem_reverse.1 hc)),
    List.reverse_reverse]

theorem contains_comma_false {l : List Char} (h : ∀ c ∈ l, ¬ (c = ',')) :
    l.contains ',' = false := by
  induction l with
  | nil => rfl
  | cons c cs ih =>
    rw [List.contains_cons]
    have hc : (',' == c) = false :=
      beq_eq_false_iff_ne.2 (fun hh => h c (List.mem_cons_self _ _) hh.symm)
    rw [hc, Bool.false_or]
    exact ih (fun x hx => h x (List.mem_cons_of_mem _ hx))

theorem wordsAux_no_ws {l : List Char} (h : ∀ c ∈ l, jsWhitespace c = false) :
    ∀ acc : List Char, wordsAux l acc =
      if acc.reverse ++ l = [] then [] else [acc.reverse ++ l] := by
  induction l with
  | nil =>
    intro acc
    simp [wordsAux]
  | cons c cs ih =>
    intro acc
    have hc := h c (List.mem_cons_self _ _)
    simp only [wordsAux]
    rw [hc, if_neg Bool.false_ne_true,
      ih (fun x hx => h x (List.mem_cons_of_mem _ hx)) (c :: acc),
      List.reverse_cons, List.append_assoc, List.singleton_append]

theorem wordsWS_single {l : List Char} (hne : l ≠ [])
    (h : ∀ c ∈ l, jsWhitespace c = false) : wordsWS l = [l] := by
  unfold wordsWS
  rw [wordsAux_no_ws h [], List.reverse_nil, List.nil_append, if_neg hne]

theorem single_token_digits (l : List Char) (hne : l ≠ [])
    (hd : ∀ c ∈ l, isDigitChar c = true) :
    handleSearchParse l = ParseOutcome.parsed l 3 := by
  have hnws : ∀ c ∈ l, jsWhitespace c = false := fun c hc => isDigitChar_not_ws (hd c hc)
  have hnc : ∀ c ∈ l, ¬ (c = ',') := fun c hc => isDigitChar_ne_comma (hd c hc)
  have htrim : trimL l = l := trimL_eq_self hnws
  have hpk : parseKeywordCount l = (l, 3) := by
    unfold parseKeywordCount
    rw [contains_comma_false hnc, if_neg Bool.false_ne_true,
      wordsWS_single hne hnws]
    rw [if_neg (by simp)]
  unfold handleSearchParse
  rw [htrim, if_neg hne, hpk]
  simp [hne]

/-- Claim C3: the input parser follows the spec rules — the five
concrete examples (including the out-of-range `"A, 99"` falling back to
the default 3 rather than clamping, and blank input rejected), any
matched count outside `[1, 20]` falls back to the default 3, every
successfully parsed count lies in `[1, 20]`, and a single-token numeric
input is treated entirely as the keyword. -/
theorem claim_C3_input_parsing :
    handleSearchParse "Chopin, 5".data = ParseOutcome.parsed "Chopin".data 5 ∧
    handleSearchParse "Economy, 10 статей".data = ParseOutcome.parsed "Economy".data 10 ∧
    handleSearchParse "Tech".data = ParseOutcome.parsed "Tech".data 3 ∧
    handleSearchParse "A, 99".data = ParseOutcome.parsed "A".data 3 ∧
    handleSearchParse "   ".data = ParseOutcome.invalid "Please enter a keyword" ∧
    (∀ (s : List Char) (n : Nat), matchCount s = some n → ¬ (0 < n ∧ n ≤ 20) →
      countFromClause s = 3) ∧
    (∀ (raw kw : List Char) (c : Nat),
      handleSearchParse raw = ParseOutcome.parsed kw c → 1 ≤ c ∧ c ≤ 20) ∧
    (∀ l : List Char, l ≠ [] → (∀ c ∈ l, isDigitChar c = true) →
      handleSearchParse l = ParseOutcome.parsed l 3) :=
  ⟨by decide, by decide, by decide, by decide, by decide,
    fun s n h hout => countFromClause_default h hout,
    fun raw kw c h => handleSearchParse_count_range raw kw c h,
    fun l hne hd => single_token_digits l hne hd⟩

/-- Witness for C3 at concrete inputs: a matched but out-of-range count
clause `"99"` falls back to 3, and the single numeric token `"7"` parses
as the keyword `"7"` with default count. -/
theorem claim_C3_witness :
    countFromClause "99".data = 3 ∧
      handleSearchParse "7".data = ParseOutcome.parsed "7".data 3 :=
  ⟨claim_C3_input_parsing.2.2.2.2.2.1 "99".data 99 (by decide) (by decide),
    claim_C3_input_parsing.2.2.2.2.2.2.2 "7".data (by decide) (by decide)⟩

theorem eq_append_drop_of_startsWithL {l pat : List Char}
    (h : startsWithL l pat = true) : l = pat ++ l.drop pat.length := by
  induction pat generalizing l with
  | nil => simp
  | cons p ps ih =>
    cases l with
    | nil => simp [startsWithL] at h
    | cons c cs =>
      simp only [startsWithL] at h
      by_cases hc : c = p
      · rw [if_pos hc] at h
        rw [List.length_cons, List.drop_succ_cons, List.cons_append, hc]
        exact congrArg (p :: ·) (ih h)
      · rw [if_neg hc] at h
        cases h

theorem startsWithL_append_left (a b c : List Char) :
    startsWithL (a ++ b) (a ++ c) = startsWithL b c := by
  induction a with
  | nil => rfl
  | cons x xs ih =>
    simp only [List.cons_append, startsWithL, if_true]
    exact ih

/-- When the cleaned path does not itself begin with a doubled media
segment, the final path does not begin with the media prefix: the
single leading `media/` strip cannot be fooled. -/
theorem pdfFinalPath_no_double_media (p : List Char)
    (h : startsWithL (pdfCleanPath p) "media/media/".data = false) :
    startsWithL (pdfFinalPath p) "media/".data = false := by
  unfold pdfFinalPath
  by_cases hc : startsWithL (pdfCleanPath p) "media/".data = true
  · rw [if_pos hc]
    by_contra hcon
    have h2 : startsWithL ((pdfCleanPath p).drop 6) "media/".data = true := by
      cases hv : startsWithL ((pdfCleanPath p).drop 6) "media/".data
      · exact absurd hv hcon
      · rfl
    have heq := eq_append_drop_of_startsWithL hc
    have hlen : ("media/".data).length = 6 := by decide
    rw [hlen] at heq
    have hdouble : startsWithL (pdfCleanPath p) "media/media/".data = true := by
      have hsplit : "media/media/".data = "media/".data ++ "media/".data := by decide
      rw [hsplit, heq, startsWithL_append_left]
      exact h2
    rw [hdouble] at h
    cases h
  · rw [if_neg hc]
    exact Bool.eq_false_iff.2 hc

/-- Counterexample to C9: for the stored path `"media/media/x.pdf"` the
single leading `media/` strip leaves `"media/x.pdf"`, so the resolved
URL contains `media/media/` — a doubled prefix. -/
theorem claim_C9_counterexample : ¬ claimC9Statement := by
  intro h
  exact absurd
    (h "http://localhost:8000".data "media/media/x.pdf".data (by decide)).2
    (by decide)

/-- Claim C9, amended: for every non-empty input the result is the base
joined with `/media/` and the normalized path; the normalization strips
exactly one leading separator and one leading `media/` segment (after
URL handling), and the media prefix is not doubled at the head of the
relative path provided the input path does not itself begin with a
repeated media segment. -/
theorem claim_C9_amended (base p : List Char) (hp : p ≠ []) :
    getPdfUrl base p = base ++ "/media/".data ++ pdfFinalPath p ∧
    (startsWithL (pdfCleanPath p) "media/".data = true →
      pdfFinalPath p = (pdfCleanPath p).drop 6) ∧
    (startsWithL (pdfCleanPath p) "media/".data = false →
      pdfFinalPath p = pdfCleanPath p) ∧
    (startsWithL (pdfCleanPath p) "media/media/".data = false →
      startsWithL (pdfFinalPath p) "media/".data = false) := by
  refine ⟨?_, ?_, ?_, pdfFinalPath_no_double_media p⟩
  · unfold getPdfUrl
    rw [if_neg hp]
  · intro h
    unfold pdfFinalPath
    rw [if_pos h]
  · intro h
    unfold pdfFinalPath
    rw [if_neg (by rw [h]; exact Bool.false_ne_true)]

/-- Witness for the amended C9 at the concrete stored path
`"/media/pdfs/a.pdf"`. -/
theorem claim_C9_witness :
    getPdfUrl "http://localhost:8000".data "/media/pdfs/a.pdf".data =
      "http://localhost:8000".data ++ "/media/".data ++
        pdfFinalPath "/media/pdfs/a.pdf".data ∧
    (startsWithL (pdfCleanPath "/media/pdfs/a.pdf".data) "media/".data = true →
      pdfFinalPath "/media/pdfs/a.pdf".data =
        (pdfCleanPath "/media/pdfs/a.pdf".data).drop 6) ∧
    (startsWithL (pdfCleanPath "/media/pdfs/a.pdf".data) "media/".data = false →
      pdfFinalPath "/media/pdfs/a.pdf".data = pdfCleanPath "/media/pdfs/a.pdf".data) ∧
    (startsWithL (pdfCleanPath "/media/pdfs/a.pdf".data) "media/media/".data = false →
      startsWithL (pdfFinalPath "/media/pdfs/a.pdf".data) "media/".data = false) :=
  claim_C9_amended "http://localhost:8000".data "/media/pdfs/a.pdf".data (by decide)
end InfoSeek
